import Mathlib

/-!
Verification of the Bellman-Ford implementation in src/bellman_ford.cc.

The C++ function

  bool bellmanFord(int V, const vector<tuple<int,int,int>>& edges,
                   int source, vector<int>& dist)

is embedded shallowly.  C++ ints are modelled by Int (signed overflow is
undefined behaviour in C++, so the exact-integer reading is the defined
fragment of the code).  The in-out vector dist is an explicit argument and
the final dist is returned together with the boolean result.  An
out-of-bounds vector access (undefined behaviour in C++) is modelled by
returning none, so the function produces Option (Bool x List Int).
-/

/-- The sentinel for unreachable distances: const int INF = 1e9 in the source. -/
def INF : Int := 1000000000

/-- An edge (u, v, w) from vertex u to vertex v with weight w, i.e. one
tuple<int, int, int> of the source. -/
abbrev Edge := Int × Int × Int

/-- Checked read of a C++ vector<int> at an int index: an out-of-range
access is undefined behaviour, modelled as none. -/
def vecGet (d : List Int) (i : Int) : Option Int :=
  if 0 ≤ i ∧ i.toNat < d.length then some (d.getD i.toNat 0) else none

/-- Checked write of a C++ vector<int> at an int index: an out-of-range
access is undefined behaviour, modelled as none. -/
def vecSet (d : List Int) (i : Int) (x : Int) : Option (List Int) :=
  if 0 ≤ i ∧ i.toNat < d.length then some (d.set i.toNat x) else none

/-- One relaxation step, lines 32-36 of the source:
if (dist[u] != INF && dist[u] + w < dist[v]) dist[v] = dist[u] + w;
The && short-circuits, so dist[v] is only read when dist[u] != INF. -/
def relaxEdge (d : List Int) (e : Edge) : Option (List Int) :=
  (vecGet d e.1).bind fun du =>
    if du = INF then some d
    else
      (vecGet d e.2.1).bind fun dv =>
        if du + e.2.2 < dv then vecSet d e.2.1 (du + e.2.2) else some d

/-- One full pass over the edge list (the inner for loop of lines 31-37). -/
def relaxPass (d : List Int) : List Edge → Option (List Int)
  | [] => some d
  | e :: es => (relaxEdge d e).bind fun d2 => relaxPass d2 es

/-- The outer loop of lines 30-38: n relaxation passes over the edge list. -/
def relaxRounds (edges : List Edge) : Nat → List Int → Option (List Int)
  | 0, d => some d
  | n + 1, d => (relaxPass d edges).bind fun d2 => relaxRounds edges n d2

/-- The relaxation test of the verification pass, lines 41-43 of the source
(same short-circuit shape as relaxEdge, but no write). -/
def checkEdge (d : List Int) (e : Edge) : Option Bool :=
  (vecGet d e.1).bind fun du =>
    if du = INF then some false
    else
      (vecGet d e.2.1).bind fun dv => some (decide (du + e.2.2 < dv))

/-- The verification pass of lines 40-46: return true at the first edge that
still admits a strict improvement, otherwise false. -/
def verifyPass (d : List Int) : List Edge → Option Bool
  | [] => some false
  | e :: es =>
    (checkEdge d e).bind fun b => if b then some true else verifyPass d es

/-- The function bellmanFord of src/bellman_ford.cc, lines 26-49.
The caller-supplied dist is immediately overwritten by
dist.assign(V, INF) (line 27), then dist[source] = 0 (line 28), then
V - 1 relaxation rounds run (lines 30-38) and one verification pass
decides the returned boolean (lines 40-48). -/
def bellmanFord (V : Int) (edges : List Edge) (source : Int) (dist : List Int) :
    Option (Bool × List Int) :=
  let dist := List.replicate V.toNat INF
  (vecSet dist source 0).bind fun d1 =>
    (relaxRounds edges (V - 1).toNat d1).bind fun d2 =>
      (verifyPass d2 edges).map fun b => (b, d2)

/-! ### Total core

On valid inputs the checked accesses never fail; the run is then equal to
the following total functions, which the correctness lemmas are about. -/

/-- Total read of a distance entry at an int vertex index. -/
def dget (d : List Int) (i : Int) : Int := d.getD i.toNat 0

/-- Total version of one relaxation step. -/
def relaxEdgeT (d : List Int) (e : Edge) : List Int :=
  if dget d e.1 ≠ INF ∧ dget d e.1 + e.2.2 < dget d e.2.1 then
    d.set e.2.1.toNat (dget d e.1 + e.2.2)
  else d

/-- Total version of one full pass over the edge list. -/
def relaxPassT (edges : List Edge) (d : List Int) : List Int :=
  edges.foldl relaxEdgeT d

/-- Boolean form of the verification test for one edge. -/
def improveB (d : List Int) (e : Edge) : Bool :=
  if dget d e.1 = INF then false else decide (dget d e.1 + e.2.2 < dget d e.2.1)

/-- Total version of the verification pass: true iff some edge still admits
a strict improvement. -/
def verifyT (edges : List Edge) (d : List Int) : Bool :=
  edges.any (improveB d)

/-- The distance table right after lines 27-28: V copies of INF with
entry source set to 0. -/
def initD (V source : Int) : List Int :=
  (List.replicate V.toNat INF).set source.toNat 0

/-- The distance table after the V - 1 relaxation rounds. -/
def finalD (V : Int) (edges : List Edge) (source : Int) : List Int :=
  (relaxPassT edges)^[(V - 1).toNat] (initD V source)

/-! ### Valid inputs -/

/-- Both endpoints of an edge are vertices of the graph. -/
def eIn (V : Int) (e : Edge) : Prop :=
  0 ≤ e.1 ∧ e.1 < V ∧ 0 ≤ e.2.1 ∧ e.2.1 < V

/-- A valid input: positive vertex count, source in range, all edge
endpoints in range. -/
def validInput (V : Int) (edges : List Edge) (source : Int) : Prop :=
  0 < V ∧ 0 ≤ source ∧ source < V ∧ ∀ e ∈ edges, eIn V e

instance (V : Int) (e : Edge) : Decidable (eIn V e) := by
  unfold eIn; infer_instance

instance (V : Int) (edges : List Edge) (source : Int) :
    Decidable (validInput V edges source) := by
  unfold validInput; infer_instance

/-! ### Walks in the edge list -/

/-- The weight of a list of edges. -/
def wsum (p : List Edge) : Int := (p.map fun e => e.2.2).sum

/-- chainFrom s p t: the edges of p link up, starting at s and ending at t. -/
def chainFrom (s : Int) : List Edge → Int → Prop
  | [], t => s = t
  | e :: es, t => e.1 = s ∧ chainFrom e.2.1 es t

/-- A walk from s to t whose edges are all drawn from the edge list E. -/
def isWalk (E : List Edge) (s : Int) (p : List Edge) (t : Int) : Prop :=
  (∀ e ∈ p, e ∈ E) ∧ chainFrom s p t

/-- t is reachable from s along the supplied edges. -/
def Reach (E : List Edge) (s t : Int) : Prop :=
  ∃ p, isWalk E s p t

/-- Every initial segment of p (including p itself) weighs strictly less
than the sentinel INF. -/
def bddW (p : List Edge) : Prop :=
  ∀ q r, p = q ++ r → wsum q < INF

/-- The sum of the absolute values of all edge weights. -/
def sumAbs (E : List Edge) : Int := (E.map fun e => |e.2.2|).sum

/-- Some negative-weight closed walk is reachable from s. -/
def negWalkFrom (E : List Edge) (s : Int) : Prop :=
  ∃ x c, c ≠ [] ∧ isWalk E x c x ∧ wsum c < 0 ∧ Reach E s x

/-- Some negative-weight cycle (a vertex-distinct closed walk) is reachable
from s. -/
def negCycleFrom (E : List Edge) (s : Int) : Prop :=
  ∃ x c, c ≠ [] ∧ isWalk E x c x ∧ wsum c < 0 ∧ Reach E s x ∧
    (c.map fun e => e.2.1).Nodup

/-! ### List helper lemmas -/

theorem getD_set_self : ∀ (d : List Int) (i : Nat) (x : Int), i < d.length →
    (d.set i x).getD i 0 = x
  | [], i, _, h => absurd h (by simp)
  | _ :: _, 0, _, _ => rfl
  | _ :: t, i + 1, x, h => getD_set_self t i x (by simpa using h)

theorem getD_set_ne : ∀ (d : List Int) (i j : Nat) (x : Int), i ≠ j →
    (d.set i x).getD j 0 = d.getD j 0
  | [], _, _, _, _ => rfl
  | _ :: _, 0, 0, _, h => absurd rfl h
  | _ :: _, 0, _ + 1, _, _ => rfl
  | _ :: _, _ + 1, 0, _, _ => rfl
  | _ :: t, i + 1, j + 1, x, h =>
    getD_set_ne t i j x (fun hh => h (by rw [hh]))

theorem getD_replicate : ∀ (n j : Nat), j < n →
    (List.replicate n (INF : Int)).getD j 0 = INF
  | n + 1, 0, _ => rfl
  | n + 1, j + 1, h => getD_replicate n j (Nat.lt_of_succ_lt_succ h)

theorem getD_eq_zero : ∀ (d : List Int) (j : Nat), d.length ≤ j → d.getD j 0 = 0
  | [], _, _ => rfl
  | _ :: _, 0, h => absurd h (by simp)
  | _ :: t, j + 1, h => getD_eq_zero t j (Nat.le_of_succ_le_succ h)

/-! ### Bridging the checked run to the total core -/

theorem vecGet_in (d : List Int) (i : Int) (h0 : 0 ≤ i) (h1 : i.toNat < d.length) :
    vecGet d i = some (dget d i) := by
  unfold vecGet dget
  rw [if_pos ⟨h0, h1⟩]

theorem vecSet_in (d : List Int) (i x : Int) (h0 : 0 ≤ i) (h1 : i.toNat < d.length) :
    vecSet d i x = some (d.set i.toNat x) := by
  unfold vecSet
  rw [if_pos ⟨h0, h1⟩]

theorem relaxEdge_eq (V : Int) (d : List Int) (e : Edge) (he : eIn V e)
    (hd : d.length = V.toNat) : relaxEdge d e = some (relaxEdgeT d e) := by
  obtain ⟨h1, h2, h3, h4⟩ := he
  have hu : e.1.toNat < d.length := by omega
  have hv : e.2.1.toNat < d.length := by omega
  unfold relaxEdge
  rw [vecGet_in d e.1 h1 hu, Option.some_bind]
  by_cases hINF : dget d e.1 = INF
  · rw [if_pos hINF]
    unfold relaxEdgeT
    rw [if_neg (by tauto)]
  · rw [if_neg hINF, vecGet_in d e.2.1 h3 hv, Option.some_bind]
    by_cases hlt : dget d e.1 + e.2.2 < dget d e.2.1
    · rw [if_pos hlt, vecSet_in d e.2.1 _ h3 hv]
      unfold relaxEdgeT
      rw [if_pos ⟨hINF, hlt⟩]
    · rw [if_neg hlt]
      unfold relaxEdgeT
      rw [if_neg (by tauto)]

theorem length_relaxEdgeT (d : List Int) (e : Edge) :
    (relaxEdgeT d e).length = d.length := by
  unfold relaxEdgeT
  split
  · exact List.length_set d _ _
  · rfl

theorem length_relaxPassT : ∀ (E : List Edge) (d : List Int),
    (relaxPassT E d).length = d.length
  | [], _ => rfl
  | e :: es, d => by
    show (relaxPassT es (relaxEdgeT d e)).length = d.length
    rw [length_relaxPassT es, length_relaxEdgeT]

theorem length_iterate_relaxPassT (E : List Edge) :
    ∀ (n : Nat) (d : List Int), ((relaxPassT E)^[n] d).length = d.length
  | 0, _ => rfl
  | n + 1, d => by
    rw [Function.iterate_succ_apply, length_iterate_relaxPassT E n,
      length_relaxPassT]

theorem relaxPass_eq (V : Int) : ∀ (E : List Edge) (d : List Int),
    (∀ e ∈ E, eIn V e) → d.length = V.toNat →
    relaxPass d E = some (relaxPassT E d)
  | [], _, _, _ => rfl
  | e :: es, d, hE, hd => by
    show (relaxEdge d e).bind _ = _
    rw [relaxEdge_eq V d e (hE e (by simp)) hd, Option.some_bind]
    exact relaxPass_eq V es (relaxEdgeT d e)
      (fun x hx => hE x (List.mem_cons_of_mem e hx))
      (by rw [length_relaxEdgeT, hd])

theorem relaxRounds_eq (V : Int) (E : List Edge) (hE : ∀ e ∈ E, eIn V e) :
    ∀ (n : Nat) (d : List Int), d.length = V.toNat →
    relaxRounds E n d = some ((relaxPassT E)^[n] d)
  | 0, _, _ => rfl
  | n + 1, d, hd => by
    show (relaxPass d E).bind _ = _
    rw [relaxPass_eq V E d hE hd, Option.some_bind,
      relaxRounds_eq V E hE n (relaxPassT E d) (by rw [length_relaxPassT, hd]),
      Function.iterate_succ_apply]

theorem checkEdge_eq (V : Int) (d : List Int) (e : Edge) (he : eIn V e)
    (hd : d.length = V.toNat) : checkEdge d e = some (improveB d e) := by
  obtain ⟨h1, h2, h3, h4⟩ := he
  have hu : e.1.toNat < d.length := by omega
  have hv : e.2.1.toNat < d.length := by omega
  unfold checkEdge
  rw [vecGet_in d e.1 h1 hu, Option.some_bind]
  by_cases hINF : dget d e.1 = INF
  · rw [if_pos hINF]
    unfold improveB
    rw [if_pos hINF]
  · rw [if_neg hINF, vecGet_in d e.2.1 h3 hv, Option.some_bind]
    unfold improveB
    rw [if_neg hINF]

theorem verifyPass_eq (V : Int) : ∀ (E : List Edge) (d : List Int),
    (∀ e ∈ E, eIn V e) → d.length = V.toNat →
    verifyPass d E = some (verifyT E d)
  | [], _, _, _ => rfl
  | e :: es, d, hE, hd => by
    show (checkEdge d e).bind _ = _
    rw [checkEdge_eq V d e (hE e (by simp)) hd, Option.some_bind]
    by_cases h : improveB d e
    · rw [if_pos h]
      unfold verifyT
      rw [List.any_cons, h]
      rfl
    · rw [if_neg h, verifyPass_eq V es d
        (fun x hx => hE x (List.mem_cons_of_mem e hx)) hd]
      unfold verifyT
      rw [List.any_cons, Bool.not_eq_true] at *
      rw [h, Bool.false_or]

theorem length_initD (V s : Int) : (initD V s).length = V.toNat := by
  unfold initD
  rw [List.length_set, List.length_replicate]

/-- On a valid input the checked run succeeds and equals the total core:
V - 1 relaxation passes from the initial table, then the verification
pass decides the boolean. -/
theorem bellmanFord_ok (V : Int) (E : List Edge) (s : Int) (d0 : List Int)
    (hv : validInput V E s) :
    bellmanFord V E s d0 = some (verifyT E (finalD V E s), finalD V E s) := by
  obtain ⟨h1, h2, h3, hE⟩ := hv
  have hs : s.toNat < (List.replicate V.toNat (INF : Int)).length := by
    rw [List.length_replicate]; omega
  show (vecSet (List.replicate V.toNat INF) s 0).bind _ = _
  rw [vecSet_in _ s 0 h2 hs, Option.some_bind]
  rw [relaxRounds_eq V E hE (V - 1).toNat ((List.replicate V.toNat INF).set s.toNat 0)
    (by rw [List.length_set, List.length_replicate]), Option.some_bind]
  rw [verifyPass_eq V E _ hE
    (by rw [length_iterate_relaxPassT, List.length_set, List.length_replicate])]
  rfl

/-! ### Walk lemmas -/

theorem wsum_nil : wsum [] = 0 := rfl

theorem wsum_cons (e : Edge) (p : List Edge) : wsum (e :: p) = e.2.2 + wsum p := by
  unfold wsum
  rw [List.map_cons, List.sum_cons]

theorem wsum_append (p q : List Edge) : wsum (p ++ q) = wsum p + wsum q := by
  unfold wsum
  rw [List.map_append, List.sum_append]

theorem chainFrom_append_intro : ∀ (p : List Edge) (s m t : Int) (q : List Edge),
    chainFrom s p m → chainFrom m q t → chainFrom s (p ++ q) t
  | [], s, m, t, q, hp, hq => by
    have hsm : s = m := hp
    rw [List.nil_append, hsm]
    exact hq
  | e :: es, s, m, t, q, hp, hq => by
    obtain ⟨h1, h2⟩ := hp
    exact ⟨h1, chainFrom_append_intro es _ m t q h2 hq⟩

theorem chainFrom_append_split : ∀ (p : List Edge) (s t : Int) (q : List Edge),
    chainFrom s (p ++ q) t → ∃ m, chainFrom s p m ∧ chainFrom m q t
  | [], s, _, _, h => ⟨s, rfl, h⟩
  | e :: es, s, t, q, h => by
    obtain ⟨h1, h2⟩ := h
    obtain ⟨m, hm1, hm2⟩ := chainFrom_append_split es _ t q h2
    exact ⟨m, ⟨h1, hm1⟩, hm2⟩

/-- If a chain visits y (as the head of some edge's target), it splits at the
first such visit. -/
theorem chainReturn : ∀ (p : List Edge) (s t y : Int), chainFrom s p t →
    y ∈ p.map (fun e => e.2.1) →
    ∃ q1 q2, p = q1 ++ q2 ∧ q1 ≠ [] ∧ chainFrom s q1 y ∧ chainFrom y q2 t
  | [], _, _, _, _, hy => absurd hy (by simp)
  | e :: es, s, t, y, hc, hy => by
    obtain ⟨h1, h2⟩ := hc
    by_cases hey : e.2.1 = y
    · exact ⟨[e], es, rfl, by simp, ⟨h1, hey⟩, by rw [← hey]; exact h2⟩
    · have hy' : y ∈ es.map (fun e => e.2.1) := by
        rw [List.map_cons] at hy
        rcases List.mem_cons.mp hy with h | h
        · exact absurd h.symm hey
        · exact h
      obtain ⟨q1, q2, hpeq, hne, hc1, hc2⟩ := chainReturn es e.2.1 t y h2 hy'
      exact ⟨e :: q1, q2, by rw [hpeq]; rfl, by simp, ⟨h1, hc1⟩, hc2⟩

/-- A chain with a repeated vertex decomposes around a nonempty closed
sub-chain. -/
theorem chainDup : ∀ (p : List Edge) (s t : Int), chainFrom s p t →
    ¬ (s :: p.map fun e => e.2.1).Nodup →
    ∃ x p1 p2 p3, p = p1 ++ p2 ++ p3 ∧ p2 ≠ [] ∧
      chainFrom s p1 x ∧ chainFrom x p2 x ∧ chainFrom x p3 t
  | [], _, _, _, hnd => absurd (by simp) hnd
  | e :: es, s, t, hc, hnd => by
    obtain ⟨h1, h2⟩ := hc
    rw [List.map_cons, List.nodup_cons] at hnd
    rcases not_and_or.mp hnd with h | h
    · have hs : s ∈ (e :: es).map (fun e => e.2.1) := by
        rw [List.map_cons]
        exact not_not.mp h
      obtain ⟨q1, q2, hpeq, hne, hc1, hc2⟩ := chainReturn (e :: es) s t s ⟨h1, h2⟩ hs
      exact ⟨s, [], q1, q2, by rw [List.nil_append]; exact hpeq, hne, rfl, hc1, hc2⟩
    · obtain ⟨x, p1, p2, p3, hpeq, hne, hc1, hc2, hc3⟩ := chainDup es e.2.1 t h2 h
      exact ⟨x, e :: p1, p2, p3, by rw [hpeq]; rfl, hne, ⟨h1, hc1⟩, hc2, hc3⟩

/-- De-looping with weights: either a reachable negative cycle exists, or the
walk shortens to a vertex-distinct walk of no larger weight whose initial
segments stay bounded. -/
theorem deloop (E : List Edge) (s : Int) : ∀ (n : Nat) (p : List Edge) (t : Int),
    p.length ≤ n → isWalk E s p t → bddW p →
    negWalkFrom E s ∨
      ∃ q, isWalk E s q t ∧ bddW q ∧ wsum q ≤ wsum p ∧
        (s :: q.map fun e => e.2.1).Nodup
  | 0, p, t, hlen, hw, hb => by
    have hp : p = [] := List.eq_nil_of_length_eq_zero (Nat.le_zero.mp hlen)
    subst hp
    exact Or.inr ⟨[], hw, hb, le_refl _, by simp⟩
  | n + 1, p, t, hlen, hw, hb => by
    by_cases hnd : (s :: p.map fun e => e.2.1).Nodup
    · exact Or.inr ⟨p, hw, hb, le_refl _, hnd⟩
    · obtain ⟨hmem, hch⟩ := hw
      obtain ⟨x, p1, p2, p3, hpeq, hne, hc1, hc2, hc3⟩ := chainDup p s t hch hnd
      by_cases hneg : wsum p2 < 0
      · refine Or.inl ⟨x, p2, hne, ⟨fun e he => hmem e ?_, hc2⟩, hneg,
          ⟨p1, fun e he => hmem e ?_, hc1⟩⟩
        · rw [hpeq]; simp [he]
        · rw [hpeq]; simp [he]
      · push_neg at hneg
        have hw' : isWalk E s (p1 ++ p3) t := by
          refine ⟨fun e he => hmem e ?_, chainFrom_append_intro p1 s x t p3 hc1 hc3⟩
          rw [hpeq]
          rcases List.mem_append.mp he with h | h
          · simp [h]
          · simp [h]
        have hb' : bddW (p1 ++ p3) := by
          intro q r hqr
          rcases List.append_eq_append_iff.mp hqr.symm with ⟨a, ha1, ha2⟩ | ⟨c, hcc1, hcc2⟩
          · -- p1 = q ++ a, so q is an initial segment of p itself
            have hinit : p = q ++ (a ++ p2 ++ p3) := by
              rw [hpeq, ha1]
              simp [List.append_assoc]
            exact hb q (a ++ p2 ++ p3) hinit
          · -- q = p1 ++ c with p3 = c ++ r ; use initial segment p1 ++ p2 ++ c of p
            have hinit : p = (p1 ++ p2 ++ c) ++ r := by
              rw [hpeq, hcc2]
              simp [List.append_assoc]
            have := hb (p1 ++ p2 ++ c) r hinit
            rw [wsum_append, wsum_append] at this
            rw [hcc1, wsum_append]
            omega
        have hlen' : (p1 ++ p3).length ≤ n := by
          have h2 : 1 ≤ p2.length := by
            rcases p2 with _ | ⟨e2, es2⟩
            · exact absurd rfl hne
            · simp
          rw [hpeq] at hlen
          rw [List.length_append] at *
          rw [List.length_append] at hlen
          omega
        have hws : wsum (p1 ++ p3) ≤ wsum p := by
          rw [hpeq, wsum_append, wsum_append, wsum_append]
          omega
        rcases deloop E s n (p1 ++ p3) t hlen' hw' hb' with h | ⟨q, hq1, hq2, hq3, hq4⟩
        · exact Or.inl h
        · exact Or.inr ⟨q, hq1, hq2, le_trans hq3 hws, hq4⟩

/-- Structural de-looping: every walk shortens to a vertex-distinct walk with
the same endpoints. -/
theorem deloopSimple (E : List Edge) (s : Int) : ∀ (n : Nat) (p : List Edge) (t : Int),
    p.length ≤ n → isWalk E s p t →
    ∃ q, isWalk E s q t ∧ (s :: q.map fun e => e.2.1).Nodup
  | 0, p, t, hlen, hw => by
    have hp : p = [] := List.eq_nil_of_length_eq_zero (Nat.le_zero.mp hlen)
    subst hp
    exact ⟨[], hw, by simp⟩
  | n + 1, p, t, hlen, hw => by
    by_cases hnd : (s :: p.map fun e => e.2.1).Nodup
    · exact ⟨p, hw, hnd⟩
    · obtain ⟨hmem, hch⟩ := hw
      obtain ⟨x, p1, p2, p3, hpeq, hne, hc1, hc2, hc3⟩ := chainDup p s t hch hnd
      have hw' : isWalk E s (p1 ++ p3) t := by
        refine ⟨fun e he => hmem e ?_, chainFrom_append_intro p1 s x t p3 hc1 hc3⟩
        rw [hpeq]
        rcases List.mem_append.mp he with h | h
        · simp [h]
        · simp [h]
      have hlen' : (p1 ++ p3).length ≤ n := by
        have h2 : 1 ≤ p2.length := by
          rcases p2 with _ | ⟨e2, es2⟩
          · exact absurd rfl hne
          · simp
        rw [hpeq] at hlen
        rw [List.length_append] at *
        rw [List.length_append] at hlen
        omega
      exact deloopSimple E s n (p1 ++ p3) t hlen' hw'

/-! ### State invariants of the relaxation -/

theorem set_oob : ∀ (d : List Int) (i : Nat) (x : Int), d.length ≤ i → d.set i x = d
  | [], _, _, _ => rfl
  | _ :: _, 0, _, h => absurd h (by simp)
  | a :: t, i + 1, x, h => by
    show a :: t.set i x = a :: t
    rw [set_oob t i x (Nat.le_of_succ_le_succ h)]

/-- All entries of the table are at most the sentinel. -/
def BoundedD (d : List Int) : Prop := ∀ x : Int, dget d x ≤ INF

/-- Every non-sentinel entry is the weight of an actual walk from the source
whose initial segments all weigh less than INF. -/
def RealizesD (V : Int) (E : List Edge) (s : Int) (d : List Int) : Prop :=
  ∀ x : Int, 0 ≤ x → x < V → dget d x ≠ INF →
    ∃ p, isWalk E s p x ∧ bddW p ∧ wsum p = dget d x

/-- After k passes every bounded walk of at most k edges is an upper bound
for the entry at its endpoint. -/
def UpperBD (E : List Edge) (s : Int) (k : Nat) (d : List Int) : Prop :=
  ∀ t p, isWalk E s p t → p.length ≤ k → bddW p → dget d t ≤ wsum p

theorem dget_initD_source (V s : Int) (h2 : 0 ≤ s) (h3 : s < V) :
    dget (initD V s) s = 0 := by
  unfold dget initD
  exact getD_set_self _ _ _ (by rw [List.length_replicate]; omega)

theorem dget_initD_other (V s x : Int) (hne : x.toNat ≠ s.toNat)
    (hlt : x.toNat < V.toNat) : dget (initD V s) x = INF := by
  unfold dget initD
  rw [getD_set_ne _ _ _ _ (fun h => hne h.symm), getD_replicate _ _ hlt]

theorem dget_initD_oob (V s x : Int) (hne : x.toNat ≠ s.toNat)
    (hge : V.toNat ≤ x.toNat) : dget (initD V s) x = 0 := by
  unfold dget initD
  rw [getD_set_ne _ _ _ _ (fun h => hne h.symm),
    getD_eq_zero _ _ (by rw [List.length_replicate]; exact hge)]

theorem INF_pos : (0 : Int) < INF := by unfold INF; omega

theorem boundedD_initD (V s : Int) (h2 : 0 ≤ s) (h3 : s < V) :
    BoundedD (initD V s) := by
  intro x
  by_cases hx : x.toNat = s.toNat
  · have : dget (initD V s) x = dget (initD V s) s := by
      unfold dget; rw [hx]
    rw [this, dget_initD_source V s h2 h3]
    exact le_of_lt INF_pos
  · by_cases hlt : x.toNat < V.toNat
    · rw [dget_initD_other V s x hx hlt]
    · rw [dget_initD_oob V s x hx (by omega)]
      exact le_of_lt INF_pos

theorem realizesD_initD (V : Int) (E : List Edge) (s : Int) (h2 : 0 ≤ s)
    (h3 : s < V) : RealizesD V E s (initD V s) := by
  intro x hx0 hxV hne
  by_cases hx : x.toNat = s.toNat
  · have hxs : x = s := by omega
    subst hxs
    rw [dget_initD_source V x h2 h3]
    refine ⟨[], ⟨by simp, rfl⟩, ?_, rfl⟩
    intro q r hqr
    rw [List.nil_eq, List.append_eq_nil] at hqr
    rw [hqr.1, wsum_nil]
    exact INF_pos
  · exact absurd (dget_initD_other V s x hx (by omega)) hne

theorem upperBD_initD (V : Int) (E : List Edge) (s : Int) (h2 : 0 ≤ s)
    (h3 : s < V) : UpperBD E s 0 (initD V s) := by
  intro t p hw hlen _
  have hp : p = [] := List.eq_nil_of_length_eq_zero (Nat.le_zero.mp hlen)
  subst hp
  have hst : s = t := hw.2
  rw [← hst, dget_initD_source V s h2 h3, wsum_nil]

theorem dget_relaxEdgeT_le (d : List Int) (e : Edge) (x : Int) :
    dget (relaxEdgeT d e) x ≤ dget d x := by
  unfold relaxEdgeT
  split
  · rename_i h
    by_cases hx : e.2.1.toNat = x.toNat
    · by_cases hlen : e.2.1.toNat < d.length
      · unfold dget
        rw [← hx, getD_set_self d _ _ hlen]
        unfold dget at h
        omega
      · unfold dget
        rw [set_oob d _ _ (by omega)]
    · unfold dget
      rw [getD_set_ne d _ _ _ hx]
  · exact le_refl _

theorem dget_foldl_le : ∀ (l : List Edge) (d : List Int) (x : Int),
    dget (l.foldl relaxEdgeT d) x ≤ dget d x
  | [], _, _ => le_refl _
  | e :: es, d, x =>
    le_trans (dget_foldl_le es (relaxEdgeT d e) x) (dget_relaxEdgeT_le d e x)

theorem relax_reaches (V : Int) : ∀ (l : List Edge) (d : List Int) (e : Edge),
    e ∈ l → (∀ f ∈ l, eIn V f) → d.length = V.toNat → dget d e.1 < INF →
    dget (l.foldl relaxEdgeT d) e.2.1 ≤ dget d e.1 + e.2.2
  | [], _, _, he, _, _, _ => absurd he (by simp)
  | e' :: es, d, e, he, hIn, hd, hdu => by
    rcases List.mem_cons.mp he with rfl | he
    · -- the head edge is the one we relax
      have h1 : dget (relaxEdgeT d e) e.2.1 ≤ dget d e.1 + e.2.2 := by
        unfold relaxEdgeT
        split
        · rename_i h
          have hIn' := hIn e (by simp)
          have hlen : e.2.1.toNat < d.length := by
            obtain ⟨a1, a2, a3, a4⟩ := hIn'
            omega
          unfold dget
          rw [getD_set_self d _ _ hlen]
        · rename_i h
          rw [Decidable.not_and_iff_or_not] at h
          rcases h with h | h
          · exact absurd (by omega : dget d e.1 ≠ INF) h
          · omega
      exact le_trans (dget_foldl_le es (relaxEdgeT d e) e.2.1) h1
    · have h1 : dget (relaxEdgeT d e') e.1 ≤ dget d e.1 := dget_relaxEdgeT_le d e' e.1
      have h2 := relax_reaches V es (relaxEdgeT d e') e he
        (fun f hf => hIn f (List.mem_cons_of_mem e' hf))
        (by rw [length_relaxEdgeT, hd]) (by omega)
      rw [List.foldl_cons]
      omega

theorem boundedD_relaxEdgeT (d : List Int) (e : Edge) (hB : BoundedD d) :
    BoundedD (relaxEdgeT d e) := by
  intro x
  unfold relaxEdgeT
  split
  · rename_i h
    by_cases hx : e.2.1.toNat = x.toNat
    · by_cases hlen : e.2.1.toNat < d.length
      · unfold dget
        rw [← hx, getD_set_self d _ _ hlen]
        have h2 := hB e.2.1
        unfold dget at h h2
        omega
      · unfold dget
        rw [set_oob d _ _ (by omega)]
        exact hB x
    · unfold dget
      rw [getD_set_ne d _ _ _ hx]
      exact hB x
  · exact hB x

theorem boundedD_foldl : ∀ (l : List Edge) (d : List Int), BoundedD d →
    BoundedD (l.foldl relaxEdgeT d)
  | [], _, h => h
  | e :: es, d, h => boundedD_foldl es (relaxEdgeT d e) (boundedD_relaxEdgeT d e h)

theorem realizesD_relaxEdgeT (V : Int) (E : List Edge) (s : Int) (d : List Int)
    (e : Edge) (he : e ∈ E) (heIn : eIn V e) (hd : d.length = V.toNat)
    (hB : BoundedD d) (hR : RealizesD V E s d) :
    RealizesD V E s (relaxEdgeT d e) := by
  intro x hx0 hxV
  obtain ⟨a1, a2, a3, a4⟩ := heIn
  by_cases hg : dget d e.1 ≠ INF ∧ dget d e.1 + e.2.2 < dget d e.2.1
  · unfold relaxEdgeT
    rw [if_pos hg]
    by_cases hvi : x = e.2.1
    · rw [hvi]
      have hlen : e.2.1.toNat < d.length := by omega
      unfold dget
      rw [getD_set_self d _ _ hlen]
      intro _
      obtain ⟨hg1, hg2⟩ := hg
      obtain ⟨p, hp1, hp2, hp3⟩ := hR e.1 a1 a2 hg1
      refine ⟨p ++ [e], ⟨?_, chainFrom_append_intro p s e.1 e.2.1 [e] hp1.2 ⟨rfl, rfl⟩⟩,
        ?_, ?_⟩
      · intro y hy
        rcases List.mem_append.mp hy with h | h
        · exact hp1.1 y h
        · rw [List.mem_singleton.mp h]
          exact he
      · -- bddW (p ++ [e])
        intro q r hqr
        rcases List.eq_nil_or_concat r with rfl | ⟨r', le, rfl⟩
        · rw [List.append_nil] at hqr
          rw [← hqr, wsum_append, hp3, wsum_cons, wsum_nil]
          have h3 := hB e.2.1
          unfold dget at hg2 h3 ⊢
          omega
        · have hqr' : p ++ [e] = q ++ r' ++ [le] := by
            rw [hqr, List.concat_eq_append, List.append_assoc]
          have := List.append_inj_left' hqr' rfl
          exact hp2 q r' this
      · rw [wsum_append, hp3, wsum_cons, wsum_nil]
        unfold dget
        omega
    · unfold dget
      rw [getD_set_ne d _ _ _ (by omega)]
      exact fun h => hR x hx0 hxV h
  · unfold relaxEdgeT
    rw [if_neg hg]
    exact hR x hx0 hxV

theorem realizesD_foldl (V : Int) (E : List Edge) (s : Int) :
    ∀ (l : List Edge) (d : List Int), (∀ e ∈ l, e ∈ E) → (∀ e ∈ l, eIn V e) →
    d.length = V.toNat → BoundedD d → RealizesD V E s d →
    RealizesD V E s (l.foldl relaxEdgeT d)
  | [], _, _, _, _, _, hR => hR
  | e :: es, d, hmem, hIn, hd, hB, hR =>
    realizesD_foldl V E s es (relaxEdgeT d e)
      (fun x hx => hmem x (List.mem_cons_of_mem e hx))
      (fun x hx => hIn x (List.mem_cons_of_mem e hx))
      (by rw [length_relaxEdgeT, hd])
      (boundedD_relaxEdgeT d e hB)
      (realizesD_relaxEdgeT V E s d e (hmem e (by simp)) (hIn e (by simp)) hd hB hR)

theorem upperBD_step (V : Int) (E : List Edge) (s : Int) (hE : ∀ e ∈ E, eIn V e)
    (k : Nat) (d : List Int) (hd : d.length = V.toNat) (hU : UpperBD E s k d) :
    UpperBD E s (k + 1) (relaxPassT E d) := by
  intro t p hw hlen hb
  rcases List.eq_nil_or_concat p with rfl | ⟨q, e, rfl⟩
  case inl =>
    have hst : s = t := hw.2
    rw [← hst, wsum_nil]
    calc dget (relaxPassT E d) s ≤ dget d s := dget_foldl_le E d s
      _ ≤ wsum ([] : List Edge) := hU s [] ⟨by simp, rfl⟩ (by simp) hb
      _ = 0 := wsum_nil
  case inr =>
    rw [List.concat_eq_append] at hw hlen hb ⊢
    obtain ⟨hmem, hch⟩ := hw
    obtain ⟨m, hm1, hm2⟩ := chainFrom_append_split q s t [e] hch
    obtain ⟨he1, he2⟩ := hm2
    have he2' : e.2.1 = t := he2
    have heE : e ∈ E := hmem e (by simp)
    have hwq : isWalk E s q m := ⟨fun x hx => hmem x (by simp [hx]), hm1⟩
    have hbq : bddW q := fun q' r' h =>
      hb q' (r' ++ [e]) (by rw [h, List.append_assoc])
    have hq_lt : wsum q < INF := hb q [e] rfl
    have hlq : q.length ≤ k := by
      rw [List.length_append] at hlen
      simp at hlen
      omega
    have hdu : dget d m ≤ wsum q := hU m q hwq hlq hbq
    have hfin : dget d e.1 < INF := by rw [he1]; omega
    have hr := relax_reaches V E d e heE hE hd hfin
    rw [he1, he2'] at hr
    rw [wsum_append, wsum_cons, wsum_nil]
    have : dget (relaxPassT E d) t ≤ dget d m + e.2.2 := hr
    omega

/-- The combined invariant after the V - 1 relaxation rounds. -/
theorem finalD_invariants (V : Int) (E : List Edge) (s : Int)
    (hv : validInput V E s) :
    (finalD V E s).length = V.toNat ∧ BoundedD (finalD V E s) ∧
    RealizesD V E s (finalD V E s) ∧ UpperBD E s (V - 1).toNat (finalD V E s) := by
  obtain ⟨h1, h2, h3, hE⟩ := hv
  have key : ∀ n : Nat, ((relaxPassT E)^[n] (initD V s)).length = V.toNat ∧
      BoundedD ((relaxPassT E)^[n] (initD V s)) ∧
      RealizesD V E s ((relaxPassT E)^[n] (initD V s)) ∧
      UpperBD E s n ((relaxPassT E)^[n] (initD V s)) := by
    intro n
    induction n with
    | zero =>
      exact ⟨length_initD V s, boundedD_initD V s h2 h3,
        realizesD_initD V E s h2 h3, upperBD_initD V E s h2 h3⟩
    | succ n ih =>
      obtain ⟨ih1, ih2, ih3, ih4⟩ := ih
      rw [Function.iterate_succ_apply']
      refine ⟨?_, ?_, ?_, ?_⟩
      · rw [length_relaxPassT, ih1]
      · exact boundedD_foldl E _ ih2
      · exact realizesD_foldl V E s E _ (fun e he => he) hE ih1 ih2 ih3
      · exact upperBD_step V E s hE n _ ih1 ih4
  exact key (V - 1).toNat

/-! ### The verification pass characterised -/

theorem verifyT_eq_true_iff (E : List Edge) (d : List Int) :
    verifyT E d = true ↔
      ∃ e ∈ E, dget d e.1 ≠ INF ∧ dget d e.1 + e.2.2 < dget d e.2.1 := by
  unfold verifyT
  rw [List.any_eq_true]
  constructor
  · rintro ⟨e, he, hb⟩
    unfold improveB at hb
    by_cases h : dget d e.1 = INF
    · rw [if_pos h] at hb
      exact absurd hb (by simp)
    · rw [if_neg h] at hb
      exact ⟨e, he, h, of_decide_eq_true hb⟩
  · rintro ⟨e, he, h1, h2⟩
    refine ⟨e, he, ?_⟩
    unfold improveB
    rw [if_neg h1]
    exact decide_eq_true h2

/-! ### Counting: a vertex-distinct walk has at most V - 1 edges -/

theorem nodup_int_length_le (V : Int) (l : List Int) (hnd : l.Nodup)
    (hr : ∀ x ∈ l, 0 ≤ x ∧ x < V) : l.length ≤ V.toNat := by
  have h1 : (l.map Int.toNat).Nodup := by
    refine List.Nodup.map_on ?_ hnd
    intro x hx y hy hxy
    have hx' := (hr x hx).1
    have hy' := (hr y hy).1
    omega
  have h3 : (l.map Int.toNat).toFinset ⊆ Finset.range V.toNat := by
    intro m hm
    rw [Finset.mem_range]
    rw [List.mem_toFinset] at hm
    obtain ⟨x, hx, rfl⟩ := List.mem_map.mp hm
    have := hr x hx
    omega
  have h4 := Finset.card_le_card h3
  rw [Finset.card_range, List.toFinset_card_of_nodup h1, List.length_map] at h4
  exact h4

theorem walk_length_le (V : Int) (E : List Edge) (hE : ∀ e ∈ E, eIn V e)
    (s : Int) (hs0 : 0 ≤ s) (hsV : s < V) (p : List Edge) (t : Int)
    (hw : isWalk E s p t) (hnd : (s :: p.map fun e => e.2.1).Nodup) :
    p.length ≤ (V - 1).toNat := by
  have hr : ∀ x ∈ (s :: p.map fun e => e.2.1), 0 ≤ x ∧ x < V := by
    intro x hx
    rcases List.mem_cons.mp hx with rfl | hx
    · exact ⟨hs0, hsV⟩
    · obtain ⟨e, he, rfl⟩ := List.mem_map.mp hx
      have h := hE e (hw.1 e he)
      exact ⟨h.2.2.1, h.2.2.2⟩
  have := nodup_int_length_le V _ hnd hr
  rw [List.length_cons, List.length_map] at this
  omega

theorem walk_edges_nodup : ∀ (p : List Edge) (s : Int),
    (s :: p.map fun e => e.2.1).Nodup → p.Nodup
  | [], _, _ => List.nodup_nil
  | e :: es, s, hnd => by
    rw [List.map_cons] at hnd
    have h1 := (List.nodup_cons.mp hnd).2
    obtain ⟨h2, h3⟩ := List.nodup_cons.mp h1
    rw [List.nodup_cons]
    exact ⟨fun hmem => h2 (List.mem_map.mpr ⟨e, hmem, rfl⟩),
      walk_edges_nodup es e.2.1 h1⟩

/-! ### Weight bounds via the total absolute weight -/

theorem sumAbs_cons (e : Edge) (p : List Edge) :
    sumAbs (e :: p) = |e.2.2| + sumAbs p := by
  unfold sumAbs
  rw [List.map_cons, List.sum_cons]

theorem wsum_le_sumAbs_self : ∀ p : List Edge, wsum p ≤ sumAbs p
  | [] => le_refl 0
  | e :: es => by
    rw [wsum_cons, sumAbs_cons]
    have h1 := wsum_le_sumAbs_self es
    have h2 : e.2.2 ≤ |e.2.2| := le_abs_self _
    omega

theorem sublist_sum_le {l1 l2 : List Int} (h : l1.Sublist l2)
    (hn : ∀ a ∈ l2, 0 ≤ a) : l1.sum ≤ l2.sum := by
  induction h with
  | slnil => exact le_refl 0
  | cons a h ih =>
    have h1 := ih (fun x hx => hn x (List.mem_cons_of_mem a hx))
    have h0 := hn a (by simp)
    rw [List.sum_cons]
    omega
  | cons₂ a h ih =>
    have h1 := ih (fun x hx => hn x (List.mem_cons_of_mem a hx))
    rw [List.sum_cons, List.sum_cons]
    omega

theorem sumAbs_le_of_nodup (E : List Edge) (q : List Edge) (hnd : q.Nodup)
    (hsub : ∀ e ∈ q, e ∈ E) : sumAbs q ≤ sumAbs E := by
  obtain ⟨l, hperm, hsl⟩ := List.Nodup.subperm hnd hsub
  unfold sumAbs
  have h1 : (l.map fun e => |e.2.2|).sum = (q.map fun e => |e.2.2|).sum :=
    List.Perm.sum_eq (List.Perm.map _ hperm)
  have h2 : (l.map fun e => |e.2.2|).Sublist (E.map fun e => |e.2.2|) :=
    List.Sublist.map _ hsl
  have h3 : ∀ a ∈ (E.map fun e => |e.2.2|), (0 : Int) ≤ a := by
    intro a ha
    obtain ⟨e, _, rfl⟩ := List.mem_map.mp ha
    exact abs_nonneg _
  have h4 := sublist_sum_le h2 h3
  omega

/-! ### From closed walks to vertex-distinct cycles -/

theorem reach_trans (E : List Edge) (a b c : Int) (h1 : Reach E a b)
    (h2 : Reach E b c) : Reach E a c := by
  obtain ⟨p, hp⟩ := h1
  obtain ⟨q, hq⟩ := h2
  exact ⟨p ++ q,
    fun e he => (List.mem_append.mp he).elim (hp.1 e) (hq.1 e),
    chainFrom_append_intro p a b c q hp.2 hq.2⟩

theorem reach_of_mem_verts (E : List Edge) (a t : Int) (p : List Edge)
    (hw : isWalk E a p t) (y : Int)
    (hy : y ∈ (a :: p.map fun e => e.2.1)) : Reach E a y := by
  rcases List.mem_cons.mp hy with rfl | hy
  · exact ⟨[], by simp, rfl⟩
  · obtain ⟨q1, q2, hpeq, hne, hc1, hc2⟩ := chainReturn p a t y hw.2 hy
    exact ⟨q1, fun e he => hw.1 e (by rw [hpeq]; exact List.mem_append_left q2 he),
      hc1⟩

/-- A chain whose endpoint list repeats a vertex splits with a nonempty first
segment and a nonempty closed middle segment. -/
theorem chainDupIn : ∀ (c : List Edge) (s t : Int), chainFrom s c t →
    ¬ (c.map fun e => e.2.1).Nodup →
    ∃ z c1 c2 c3, c = c1 ++ c2 ++ c3 ∧ c1 ≠ [] ∧ c2 ≠ [] ∧
      chainFrom s c1 z ∧ chainFrom z c2 z ∧ chainFrom z c3 t
  | [], _, _, _, hnd => absurd List.nodup_nil hnd
  | e :: es, s, t, hc, hnd => by
    obtain ⟨h1, h2⟩ := hc
    rw [List.map_cons, List.nodup_cons] at hnd
    rcases not_and_or.mp hnd with h | h
    · have hmem : e.2.1 ∈ es.map (fun e => e.2.1) := not_not.mp h
      obtain ⟨q1, q2, hpeq, hne, hc1, hc2⟩ := chainReturn es e.2.1 t e.2.1 h2 hmem
      exact ⟨e.2.1, [e], q1, q2, by rw [hpeq]; rfl, by simp, hne, ⟨h1, rfl⟩, hc1, hc2⟩
    · obtain ⟨z, c1, c2, c3, hpeq, hne1, hne2, hd1, hd2, hd3⟩ :=
        chainDupIn es e.2.1 t h2 h
      exact ⟨z, e :: c1, c2, c3, by rw [hpeq]; rfl, by simp, hne2, ⟨h1, hd1⟩,
        hd2, hd3⟩

/-- Every reachable negative closed walk contains a reachable vertex-distinct
negative cycle. -/
theorem negWalk_to_negCycle (E : List Edge) (s : Int) (hnw : negWalkFrom E s) :
    negCycleFrom E s := by
  obtain ⟨x, c, hne, hw, hneg, hreach⟩ := hnw
  suffices h : ∀ (n : Nat) (x : Int) (c : List Edge), c.length ≤ n → c ≠ [] →
      isWalk E x c x → wsum c < 0 → Reach E s x → negCycleFrom E s from
    h c.length x c (le_refl _) hne hw hneg hreach
  intro n
  induction n with
  | zero =>
    intro x c hlen hne _ _ _
    exact absurd (List.eq_nil_of_length_eq_zero (Nat.le_zero.mp hlen)) hne
  | succ n ih =>
    intro x c hlen hne hw hneg hreach
    by_cases hnd : (c.map fun e => e.2.1).Nodup
    · exact ⟨x, c, hne, hw, hneg, hreach, hnd⟩
    · obtain ⟨z, c1, c2, c3, hpeq, hne1, hne2, hd1, hd2, hd3⟩ :=
        chainDupIn c x x hw.2 hnd
      have hmemc : ∀ e ∈ c1 ++ c2 ++ c3, e ∈ E := by
        rw [← hpeq]
        exact hw.1
      have hsplit : wsum c = wsum c1 + wsum c2 + wsum c3 := by
        rw [hpeq, wsum_append, wsum_append]
      have hl1 : 1 ≤ c1.length := by
        rcases c1 with _ | ⟨e1, es1⟩
        · exact absurd rfl hne1
        · simp
      have hl2 : 1 ≤ c2.length := by
        rcases c2 with _ | ⟨e2, es2⟩
        · exact absurd rfl hne2
        · simp
      have hlc : c.length = c1.length + c2.length + c3.length := by
        rw [hpeq, List.length_append, List.length_append]
      have hrz : Reach E s z := reach_trans E s x z hreach
        ⟨c1, fun e he => hmemc e (by simp [he]), hd1⟩
      by_cases hc2neg : wsum c2 < 0
      · exact ih z c2 (by omega) hne2
          ⟨fun e he => hmemc e (by simp [he]), hd2⟩ hc2neg hrz
      · have hrw : isWalk E x (c1 ++ c3) x := by
          refine ⟨fun e he => hmemc e ?_, chainFrom_append_intro c1 x z x c3 hd1 hd3⟩
          rcases List.mem_append.mp he with h | h
          · simp [h]
          · simp [h]
        have hrneg : wsum (c1 ++ c3) < 0 := by
          rw [wsum_append]
          omega
        have hrne : c1 ++ c3 ≠ [] := fun h => hne1 (List.append_eq_nil.mp h).1
        have hrlen : (c1 ++ c3).length ≤ n := by
          rw [List.length_append]
          omega
        exact ih x (c1 ++ c3) hrlen hrne hrw hrneg hreach

/-! ### Main lemmas about the end state -/

/-- If the verification pass still finds an improving edge, a negative-weight
cycle reachable from the source exists. -/
theorem improve_implies_negCycle (V : Int) (E : List Edge) (s : Int)
    (hv : validInput V E s) (h : verifyT E (finalD V E s) = true) :
    negCycleFrom E s := by
  obtain ⟨hV, hs0, hsV, hE⟩ := hv
  obtain ⟨hlen, hB, hR, hU⟩ := finalD_invariants V E s ⟨hV, hs0, hsV, hE⟩
  obtain ⟨e, heE, h1, h2⟩ := (verifyT_eq_true_iff E _).mp h
  obtain ⟨a1, a2, a3, a4⟩ := hE e heE
  obtain ⟨p, hp1, hp2, hp3⟩ := hR e.1 a1 a2 h1
  by_contra hnc
  have hwW : isWalk E s (p ++ [e]) e.2.1 := by
    refine ⟨?_, chainFrom_append_intro p s e.1 e.2.1 [e] hp1.2 ⟨rfl, rfl⟩⟩
    intro y hy
    rcases List.mem_append.mp hy with hm | hm
    · exact hp1.1 y hm
    · rw [List.mem_singleton.mp hm]
      exact heE
  have hbW : bddW (p ++ [e]) := by
    intro q r hqr
    rcases List.eq_nil_or_concat r with rfl | ⟨r', le, rfl⟩
    · rw [List.append_nil] at hqr
      rw [← hqr, wsum_append, hp3, wsum_cons, wsum_nil]
      have h3 := hB e.2.1
      omega
    · have hqr' : p ++ [e] = q ++ r' ++ [le] := by
        rw [hqr, List.concat_eq_append, List.append_assoc]
      exact hp2 q r' (List.append_inj_left' hqr' rfl)
  rcases deloop E s (p ++ [e]).length (p ++ [e]) e.2.1 (le_refl _) hwW hbW with
    hcyc | ⟨q, hq1, hq2, hq3, hq4⟩
  · exact hnc (negWalk_to_negCycle E s hcyc)
  · have hql := walk_length_le V E hE s hs0 hsV q e.2.1 hq1 hq4
    have hub := hU e.2.1 q hq1 hql hq2
    rw [wsum_append, wsum_cons, wsum_nil, hp3] at hq3
    omega

/-- Under the total-absolute-weight bound, every vertex reachable from the
source ends with a finite distance. -/
theorem reach_finite (V : Int) (E : List Edge) (s : Int) (hv : validInput V E s)
    (hb : sumAbs E < INF) (x : Int) (hr : Reach E s x) :
    dget (finalD V E s) x < INF := by
  obtain ⟨hV, hs0, hsV, hE⟩ := hv
  obtain ⟨hlen, hB, hR, hU⟩ := finalD_invariants V E s ⟨hV, hs0, hsV, hE⟩
  obtain ⟨p, hp⟩ := hr
  obtain ⟨q, hq1, hq2⟩ := deloopSimple E s p.length p x (le_refl _) hp
  have hql := walk_length_le V E hE s hs0 hsV q x hq1 hq2
  have hqnd : q.Nodup := walk_edges_nodup q s hq2
  have hbq : bddW q := by
    intro q' r' hqr
    have hnd' : q'.Nodup := by
      rw [hqr] at hqnd
      exact List.Nodup.of_append_left hqnd
    have hsub : ∀ e ∈ q', e ∈ E := fun e he =>
      hq1.1 e (by rw [hqr]; exact List.mem_append_left r' he)
    calc wsum q' ≤ sumAbs q' := wsum_le_sumAbs_self q'
      _ ≤ sumAbs E := sumAbs_le_of_nodup E q' hnd' hsub
      _ < INF := hb
  have hub := hU x q hq1 hql hbq
  have hq_lt : wsum q < INF := hbq q [] (by rw [List.append_nil])
  omega

/-- Telescoping a relaxed fixed point along a walk all of whose vertices are
finite. -/
theorem telescope (E : List Edge) (d : List Int)
    (hfp : ∀ e ∈ E, dget d e.1 ≠ INF → dget d e.2.1 ≤ dget d e.1 + e.2.2) :
    ∀ (p : List Edge) (a b : Int), isWalk E a p b →
      (∀ y ∈ (a :: p.map fun e => e.2.1), dget d y < INF) →
      dget d b ≤ dget d a + wsum p
  | [], a, _, hw, _ => by
    have hab : a = _ := hw.2
    rw [← hab, wsum_nil]
    omega
  | e :: es, a, b, hw, hfin => by
    obtain ⟨hmem, hch⟩ := hw
    obtain ⟨h1, h2⟩ := hch
    have ha : dget d a < INF := hfin a (by simp)
    have hstep := hfp e (hmem e (by simp)) (by rw [h1]; omega)
    have hw' : isWalk E e.2.1 es b :=
      ⟨fun x hx => hmem x (List.mem_cons_of_mem e hx), h2⟩
    have hfin' : ∀ y ∈ (e.2.1 :: es.map fun e => e.2.1), dget d y < INF := by
      intro y hy
      apply hfin
      rw [List.map_cons]
      exact List.mem_cons_of_mem a hy
    have hrec := telescope E d hfp es e.2.1 b hw' hfin'
    rw [wsum_cons]
    rw [h1] at hstep
    omega

/-- Under the total-absolute-weight bound a reachable negative cycle forces
the verification pass to find an improving edge. -/
theorem negCycle_implies_improve (V : Int) (E : List Edge) (s : Int)
    (hv : validInput V E s) (hb : sumAbs E < INF) (hnc : negCycleFrom E s) :
    verifyT E (finalD V E s) = true := by
  by_contra hf
  rw [Bool.not_eq_true] at hf
  have hfp : ∀ e ∈ E, dget (finalD V E s) e.1 ≠ INF →
      dget (finalD V E s) e.2.1 ≤ dget (finalD V E s) e.1 + e.2.2 := by
    intro e he hne
    by_contra hlt
    push_neg at hlt
    have ht : verifyT E (finalD V E s) = true :=
      (verifyT_eq_true_iff E _).mpr ⟨e, he, hne, hlt⟩
    rw [ht] at hf
    exact Bool.noConfusion hf
  obtain ⟨x, c, hcne, hcw, hcneg, hreach, _⟩ := hnc
  have hfin : ∀ y ∈ (x :: c.map fun e => e.2.1), dget (finalD V E s) y < INF := by
    intro y hy
    exact reach_finite V E s hv hb y
      (reach_trans E s x y hreach (reach_of_mem_verts E x x c hcw y hy))
  have := telescope E (finalD V E s) hfp c x x hcw hfin
  omega

/-! ### Concrete graphs from the test suite and counterexamples -/

/-- Scenario A of the spec (test case 1 of the source). -/
def exA : List Edge :=
  [(0,1,-1),(0,2,4),(1,2,3),(1,3,2),(1,4,2),(3,2,5),(3,1,1),(4,3,-3)]

/-- The negative triangle of test case 2. -/
def exB : List Edge := [(0,1,-1),(1,2,-2),(2,0,-3)]

/-- The disconnected graph of test case 3. -/
def exC : List Edge := [(0,1,1),(2,3,1)]

/-- The zero-weight cycle of test case 5. -/
def exD : List Edge := [(0,1,0),(1,2,0),(2,0,0)]

/-- A negative cycle that hides behind an edge whose weight equals the
sentinel: relaxing 0 + 1000000000 < INF fails, vertex 1 stays at INF. -/
def cexBig : List Edge := [(0,1,1000000000),(1,0,-1000000001)]

/-- A negative self-loop reachable only through an edge of weight INF. -/
def cexLoop : List Edge := [(0,1,1000000000),(1,1,-5)]

/-- A reachable negative self-loop with small weights. -/
def exLoop : List Edge := [(0,1,1),(1,1,-1)]

/-! ### The claims -/

/-- Claim C1, amended.  For every valid input the run succeeds, and the
returned boolean is true iff some edge still admits a strict improvement
after the V - 1 relaxation rounds.  A true result implies a negative-weight
cycle reachable from the source.  The converse holds provided the total
absolute edge weight stays below the sentinel INF (the unrestricted converse
fails, see the counterexample: with the finite sentinel a reachable negative
cycle can stay undiscovered). -/
theorem bellmanFord_true_characterization (V : Int) (E : List Edge) (s : Int)
    (d0 : List Int) (hv : validInput V E s) :
    ∃ b d, bellmanFord V E s d0 = some (b, d) ∧
      (b = true ↔ ∃ e ∈ E, dget d e.1 ≠ INF ∧ dget d e.1 + e.2.2 < dget d e.2.1) ∧
      (b = true → negCycleFrom E s) ∧
      (sumAbs E < INF → negCycleFrom E s → b = true) :=
  ⟨verifyT E (finalD V E s), finalD V E s, bellmanFord_ok V E s d0 hv,
    verifyT_eq_true_iff E (finalD V E s),
    improve_implies_negCycle V E s hv,
    fun hb hnc => negCycle_implies_improve V E s hv hb hnc⟩

/-- Witness for C1 at the negative triangle of test case 2. -/
theorem bellmanFord_true_characterization_witness :
    validInput 3 exB 0 ∧
    ∃ b d, bellmanFord 3 exB 0 [] = some (b, d) ∧
      (b = true ↔ ∃ e ∈ exB, dget d e.1 ≠ INF ∧ dget d e.1 + e.2.2 < dget d e.2.1) ∧
      (b = true → negCycleFrom exB 0) ∧
      (sumAbs exB < INF → negCycleFrom exB 0 → b = true) :=
  ⟨by decide, bellmanFord_true_characterization 3 exB 0 [] (by decide)⟩

/-- Counterexample to C1 as stated: a valid input carrying a reachable
negative cycle (0 to 1 with weight 10^9, back with weight -(10^9 + 1)) on
which bellmanFord nevertheless returns false, because the relaxation
0 + 10^9 < INF is not strict and vertex 1 keeps the sentinel. -/
theorem bellmanFord_misses_negCycle :
    validInput 2 cexBig 0 ∧ negCycleFrom cexBig 0 ∧
      bellmanFord 2 cexBig 0 [] = some (false, [0, INF]) := by
  refine ⟨by decide, ?_, by decide⟩
  refine ⟨0, cexBig, by decide, ⟨fun e he => he, ⟨rfl, rfl, rfl⟩⟩, by decide,
    ⟨[], ?_, rfl⟩, by decide⟩
  intro e he
  exact absurd he (List.not_mem_nil e)

/-- Claim C2: scenario A returns no negative cycle and the distance table
[0, -1, 2, -2, 1]. -/
theorem bellmanFord_scenarioA :
    bellmanFord 5 exA 0 [] = some (false, [0, -1, 2, -2, 1]) := by decide

/-- Claim C3: whenever bellmanFord reports no negative cycle, the returned
table is a relaxed fixed point: every edge whose tail is away from the
sentinel satisfies dist v at most dist u + w. -/
theorem bellmanFord_relaxed_fixed_point (V : Int) (E : List Edge) (s : Int)
    (d0 d : List Int) (hv : validInput V E s)
    (hrun : bellmanFord V E s d0 = some (false, d)) :
    ∀ e ∈ E, dget d e.1 ≠ INF → dget d e.2.1 ≤ dget d e.1 + e.2.2 := by
  have hok := bellmanFord_ok V E s d0 hv
  rw [hrun] at hok
  have hpair := Option.some.inj hok
  have h1 : false = verifyT E (finalD V E s) := congrArg Prod.fst hpair
  have h2 : d = finalD V E s := congrArg Prod.snd hpair
  intro e he hne
  by_contra hlt
  push_neg at hlt
  have ht : verifyT E (finalD V E s) = true :=
    (verifyT_eq_true_iff E (finalD V E s)).mpr
      ⟨e, he, by rw [← h2]; exact hne, by rw [← h2]; exact hlt⟩
  rw [← h1] at ht
  exact Bool.noConfusion ht

/-- Witness for C3 at scenario A. -/
theorem bellmanFord_relaxed_fixed_point_witness :
    (validInput 5 exA 0 ∧
      bellmanFord 5 exA 0 [] = some (false, [0, -1, 2, -2, 1])) ∧
    ∀ e ∈ exA, dget [0, -1, 2, -2, 1] e.1 ≠ INF →
      dget [0, -1, 2, -2, 1] e.2.1 ≤ dget [0, -1, 2, -2, 1] e.1 + e.2.2 :=
  ⟨⟨by decide, by decide⟩,
    bellmanFord_relaxed_fixed_point 5 exA 0 [] [0, -1, 2, -2, 1]
      (by decide) (by decide)⟩

/-- Claim C4: vertices with no walk from the source end at the sentinel, and
a true flag is always triggered by an edge whose tail (and so head) is
reachable, never by a disconnected vertex. -/
theorem bellmanFord_unreachable_sentinel (V : Int) (E : List Edge) (s : Int)
    (d0 : List Int) (hv : validInput V E s) :
    ∃ b d, bellmanFord V E s d0 = some (b, d) ∧
      (∀ x : Int, 0 ≤ x → x < V → ¬ Reach E s x → dget d x = INF) ∧
      (b = true → ∃ e ∈ E, Reach E s e.1 ∧ Reach E s e.2.1 ∧
        dget d e.1 ≠ INF ∧ dget d e.1 + e.2.2 < dget d e.2.1) := by
  obtain ⟨hlen, hB, hR, hU⟩ := finalD_invariants V E s hv
  refine ⟨verifyT E (finalD V E s), finalD V E s, bellmanFord_ok V E s d0 hv,
    ?_, ?_⟩
  · intro x hx0 hxV hnr
    by_contra hne
    obtain ⟨p, hp1, _, _⟩ := hR x hx0 hxV hne
    exact hnr ⟨p, hp1⟩
  · intro ht
    obtain ⟨e, he, h1, h2⟩ := (verifyT_eq_true_iff E (finalD V E s)).mp ht
    obtain ⟨a1, a2, a3, a4⟩ := hv.2.2.2 e he
    obtain ⟨p, hp1, _, _⟩ := hR e.1 a1 a2 h1
    have hru : Reach E s e.1 := ⟨p, hp1⟩
    refine ⟨e, he, hru, ?_, h1, h2⟩
    exact reach_trans E s e.1 e.2.1 hru ⟨[e], fun x hx => by
      rw [List.mem_singleton.mp hx]; exact he, ⟨rfl, rfl⟩⟩

/-- Witness for C4 at the disconnected graph of test case 3. -/
theorem bellmanFord_unreachable_sentinel_witness :
    validInput 4 exC 0 ∧
    ∃ b d, bellmanFord 4 exC 0 [] = some (b, d) ∧
      (∀ x : Int, 0 ≤ x → x < 4 → ¬ Reach exC 0 x → dget d x = INF) ∧
      (b = true → ∃ e ∈ exC, Reach exC 0 e.1 ∧ Reach exC 0 e.2.1 ∧
        dget d e.1 ≠ INF ∧ dget d e.1 + e.2.2 < dget d e.2.1) :=
  ⟨by decide, bellmanFord_unreachable_sentinel 4 exC 0 [] (by decide)⟩

/-- Claim C5: on a valid input all of whose cycles (vertex-distinct closed
walks) have non-negative total weight, bellmanFord reports no negative
cycle; in particular the zero-weight cycle of scenario D yields false with
distances [0, 0, 0]. -/
theorem bellmanFord_nonneg_cycles_false (V : Int) (E : List Edge) (s : Int)
    (d0 : List Int) (hv : validInput V E s)
    (hcyc : ∀ x c, c ≠ [] → isWalk E x c x → (c.map fun e => e.2.1).Nodup →
      0 ≤ wsum c) :
    (∃ d, bellmanFord V E s d0 = some (false, d)) ∧
    bellmanFord 3 exD 0 [] = some (false, [0, 0, 0]) := by
  refine ⟨⟨finalD V E s, ?_⟩, by decide⟩
  have hok := bellmanFord_ok V E s d0 hv
  by_cases hb : verifyT E (finalD V E s) = true
  · obtain ⟨x, c, hcne, hcw, hcneg, _, hcnd⟩ := improve_implies_negCycle V E s hv hb
    have := hcyc x c hcne hcw hcnd
    omega
  · rw [Bool.not_eq_true] at hb
    rw [hb] at hok
    exact hok

/-- Witness for C5 at the one-vertex graph with no edges (vacuously all
cycles are non-negative). -/
theorem bellmanFord_nonneg_cycles_false_witness :
    (validInput 1 [] 0 ∧
      ∀ x c, c ≠ [] → isWalk ([] : List Edge) x c x →
        (c.map fun e => e.2.1).Nodup → 0 ≤ wsum c) ∧
    ((∃ d, bellmanFord 1 [] 0 [] = some (false, d)) ∧
      bellmanFord 3 exD 0 [] = some (false, [0, 0, 0])) := by
  have hcyc : ∀ x c, c ≠ [] → isWalk ([] : List Edge) x c x →
      (c.map fun e => e.2.1).Nodup → 0 ≤ wsum c := by
    intro x c hne hw _
    rcases c with _ | ⟨e, es⟩
    · exact absurd rfl hne
    · exact absurd (hw.1 e (by simp)) (List.not_mem_nil e)
  exact ⟨⟨by decide, hcyc⟩,
    bellmanFord_nonneg_cycles_false 1 [] 0 [] (by decide) hcyc⟩

/-- Claim C6, amended.  A negative self-loop at a vertex u reachable from the
source forces a true result, provided the total absolute edge weight stays
below the sentinel INF (which guarantees dist u is finite when the
verification pass runs).  Without that proviso the claim fails, see the
counterexample. -/
theorem bellmanFord_neg_self_loop_detected (V : Int) (E : List Edge) (s : Int)
    (d0 : List Int) (u w : Int) (hv : validInput V E s)
    (hb : sumAbs E < INF) (hself : (u, u, w) ∈ E) (hw : w < 0)
    (hr : Reach E s u) :
    ∃ d, bellmanFord V E s d0 = some (true, d) := by
  refine ⟨finalD V E s, ?_⟩
  have hok := bellmanFord_ok V E s d0 hv
  have hfin : dget (finalD V E s) u < INF := reach_finite V E s hv hb u hr
  have ht : verifyT E (finalD V E s) = true := by
    refine (verifyT_eq_true_iff E (finalD V E s)).mpr ⟨(u, u, w), hself, ?_, ?_⟩
    · show dget (finalD V E s) u ≠ INF
      omega
    · show dget (finalD V E s) u + w < dget (finalD V E s) u
      omega
  rw [ht] at hok
  exact hok

/-- Witness for C6 at a reachable negative self-loop with small weights. -/
theorem bellmanFord_neg_self_loop_detected_witness :
    (validInput 2 exLoop 0 ∧ sumAbs exLoop < INF ∧
      ((1, 1, -1) : Edge) ∈ exLoop ∧ (-1 : Int) < 0 ∧ Reach exLoop 0 1) ∧
    ∃ d, bellmanFord 2 exLoop 0 [] = some (true, d) := by
  have hr : Reach exLoop 0 1 :=
    ⟨[(0, 1, 1)], fun e he => by rw [List.mem_singleton.mp he]; decide,
      ⟨rfl, rfl⟩⟩
  exact ⟨⟨by decide, by decide, by decide, by decide, hr⟩,
    bellmanFord_neg_self_loop_detected 2 exLoop 0 [] 1 (-1) (by decide)
      (by decide) (by decide) (by decide) hr⟩

/-- Counterexample to C6 as stated: the self-loop (1, 1, -5) is negative and
vertex 1 is reachable through the edge (0, 1, 10^9), yet bellmanFord returns
false, because 0 + 10^9 < INF fails and vertex 1 keeps the sentinel. -/
theorem bellmanFord_neg_self_loop_missed :
    validInput 2 cexLoop 0 ∧ ((1, 1, -5) : Edge) ∈ cexLoop ∧ (-5 : Int) < 0 ∧
      Reach cexLoop 0 1 ∧
      bellmanFord 2 cexLoop 0 [] = some (false, [0, INF]) := by
  refine ⟨by decide, by decide, by decide, ?_, by decide⟩
  exact ⟨[(0, 1, 1000000000)],
    fun e he => by rw [List.mem_singleton.mp he]; decide, ⟨rfl, rfl⟩⟩

/-- Claim C8: the one-vertex graph with no edges runs zero relaxation rounds
((V - 1).toNat = 0) and returns no negative cycle with dist = [0]. -/
theorem bellmanFord_single_vertex :
    bellmanFord 1 [] 0 [] = some (false, [0]) ∧ ((1 : Int) - 1).toNat = 0 :=
  ⟨by decide, rfl⟩

/-- Claim C9: on every valid input the run yields a defined result obtained
by exactly (V - 1).toNat relaxation passes over the edge list followed by
one verification pass, i.e. V passes in total. -/
theorem bellmanFord_pass_count (V : Int) (E : List Edge) (s : Int)
    (d0 : List Int) (hv : validInput V E s) :
    bellmanFord V E s d0 =
      some (verifyT E ((relaxPassT E)^[(V - 1).toNat] (initD V s)),
        (relaxPassT E)^[(V - 1).toNat] (initD V s)) ∧
    (V - 1).toNat + 1 = V.toNat := by
  constructor
  · exact bellmanFord_ok V E s d0 hv
  · have h1 := hv.1
    omega

/-- Witness for C9 at scenario A. -/
theorem bellmanFord_pass_count_witness :
    validInput 5 exA 0 ∧
    (bellmanFord 5 exA 0 [] =
      some (verifyT exA ((relaxPassT exA)^[((5 : Int) - 1).toNat] (initD 5 0)),
        (relaxPassT exA)^[((5 : Int) - 1).toNat] (initD 5 0)) ∧
    ((5 : Int) - 1).toNat + 1 = (5 : Int).toNat) :=
  ⟨by decide, bellmanFord_pass_count 5 exA 0 [] (by decide)⟩

/-- Claim C10: the result of bellmanFord does not depend on the caller's
incoming dist vector, which line 27 unconditionally overwrites. -/
theorem bellmanFord_ignores_initial_dist (V : Int) (E : List Edge) (s : Int)
    (d1 d2 : List Int) : bellmanFord V E s d1 = bellmanFord V E s d2 := rfl
